import Mathlib

/- Verification of the firestore-session scoped-state persistence and merge
   engine.  The definitions below are a shallow embedding of
   src/firestore_session/firestore_session_service.py (create_session,
   get_session, append_event, delete_session, _merge_state,
   _delete_collection, _update_session_state_local) and of
   src/firestore_session/factory.py (firestore_session_service_factory).
   Python dicts are embedded as insertion-ordered association lists over
   String keys; timestamps are embedded as Nat (only their order and
   equality matter to the service); state values are an opaque type V. -/

set_option maxHeartbeats 1000000

/-- Dict lookup, first matching key. -/
def lookupKey {α : Type} : List (String × α) → String → Option α
  | [], _ => none
  | (k, v) :: rest, q => if k = q then some v else lookupKey rest q

/-- Dict assignment m[k] = v: replaces the binding in place when the key is
    present, otherwise appends (Python insertion order). -/
def setKey {α : Type} : List (String × α) → String → α → List (String × α)
  | [], k, v => [(k, v)]
  | (k1, v1) :: rest, k, v =>
    if k1 = k then (k, v) :: rest else (k1, v1) :: setKey rest k v

/-- Repeated dict assignment over a list of entries, in order. -/
def stateFold {α : Type} (m : List (String × α)) (es : List (String × α)) :
    List (String × α) :=
  es.foldl (fun a kv => setKey a kv.1 kv.2) m

/-- Association list of string keys and values of type V (a Python dict). -/
abbrev SDict (V : Type) := List (String × V)

/-- Python str.startswith. -/
def strStarts (k p : String) : Bool := p.data.isPrefixOf k.data

/-- Python str.removeprefix: drops p from the front of k when k starts with
    p, otherwise returns k unchanged. -/
def removePfx (k p : String) : String :=
  if strStarts k p then ⟨k.data.drop p.data.length⟩ else k

/-- ADK State.APP_PREFIX. -/
def appPfxStr : String := "app:"

/-- ADK State.USER_PREFIX. -/
def userPfxStr : String := "user:"

/-- ADK State.TEMP_PREFIX, the transient-tier reserved marker. -/
def tempPfxStr : String := "temp:"

/-- Field-path head used by the source in the f-string state.{key}. -/
def stateFieldPfx : String := "state."

/-- Event actions restricted to the field the service reads
    (event.actions.state_delta). -/
structure EvActions (V : Type) where
  state_delta : SDict V
  deriving DecidableEq

/-- An ADK event, restricted to the fields the service reads: id, timestamp,
    the partial-streaming flag, and the optional actions. -/
structure Ev (V : Type) where
  id : String
  timestamp : Nat
  partialFlag : Bool
  actions : Option (EvActions V)
  deriving DecidableEq

/-- State delta of an event; absent actions (or an absent delta) behave as
    an empty delta, since iterating an empty dict produces no writes. -/
def deltaOf {V : Type} (e : Ev V) : SDict V :=
  match e.actions with
  | none => []
  | some a => a.state_delta

/-- Persisted session document sessions/{session_id}: its state map and
    last_update_time (the constant id/app_name/user_id fields are modelled
    only in RawSessionDoc, where their absence matters). -/
structure SessDoc (V : Type) where
  state : SDict V
  last_update_time : Nat

/-- In-memory Session object as the service mutates it. -/
structure SessObj (V : Type) where
  state : SDict V
  events : List (Ev V)
  last_update_time : Nat

/-- The documents reachable from one (app_name, user_id, session_id) path:
    apps/{app}, apps/{app}/users/{user}, the session document, and the
    events sub-collection keyed by event id. -/
structure Store (V : Type) where
  appDoc : Option (SDict V)
  userDoc : Option (SDict V)
  sessionDoc : Option (SessDoc V)
  eventDocs : List (String × Ev V)

/-- Store with no documents. -/
def emptyStore {V : Type} : Store V := ⟨none, none, none, []⟩

/-- One write of the Firestore batch built by append_event. -/
inductive Write (V : Type) where
  | setEvent (e : Ev V)
  | mergeApp (k : String) (v : V)
  | mergeUser (k : String) (v : V)
  | updateSessionField (path : String) (v : V)
  | updateTime (t : Nat)

/-- Routing of one state-delta entry, append_event lines 243-260: skip
    temp-prefixed keys, merge app-prefixed keys into the app document with
    the prefix stripped, merge user-prefixed keys into the user document
    with the prefix stripped, and update the session document field
    state.{key} otherwise. -/
def deltaWrite {V : Type} (kv : String × V) : Option (Write V) :=
  if strStarts kv.1 tempPfxStr then none
  else if strStarts kv.1 appPfxStr then
    some (.mergeApp (removePfx kv.1 appPfxStr) kv.2)
  else if strStarts kv.1 userPfxStr then
    some (.mergeUser (removePfx kv.1 userPfxStr) kv.2)
  else some (.updateSessionField (stateFieldPfx ++ kv.1) kv.2)

/-- The single batch append_event commits: the event document set, the
    routed delta writes in delta order, then the last_update_time update. -/
def buildBatch {V : Type} (sess : SessObj V) (e : Ev V) : List (Write V) :=
  Write.setEvent e ::
    ((deltaOf e).filterMap deltaWrite ++ [Write.updateTime sess.last_update_time])

/-- Store semantics of one write (spec section 6): set creates or
    overwrites, set-with-merge upserts a field creating the document when
    absent, update fails when the document is absent (failing the whole
    batch commit). -/
def applyWrite {V : Type} (st : Store V) : Write V → Option (Store V)
  | .setEvent e => some { st with eventDocs := setKey st.eventDocs e.id e }
  | .mergeApp k v => some { st with appDoc := some (setKey (st.appDoc.getD []) k v) }
  | .mergeUser k v => some { st with userDoc := some (setKey (st.userDoc.getD []) k v) }
  | .updateSessionField path v =>
    match st.sessionDoc with
    | none => none
    | some d =>
      some { st with sessionDoc := some { d with state := setKey d.state (removePfx path stateFieldPfx) v } }
  | .updateTime t =>
    match st.sessionDoc with
    | none => none
    | some d => some { st with sessionDoc := some { d with last_update_time := t } }

/-- Atomic commit of a batch: every write lands or the commit fails. -/
def applyBatch {V : Type} (st : Store V) (ws : List (Write V)) : Option (Store V) :=
  ws.foldlM applyWrite st

/-- Source _update_session_state_local: apply the delta to session.state
    with the full scoped keys, skipping temp-prefixed keys. -/
def update_session_state_local {V : Type} (sess : SessObj V) (e : Ev V) : SessObj V :=
  { sess with
    state := (deltaOf e).foldl
      (fun m kv => if strStarts kv.1 tempPfxStr then m else setKey m kv.1 kv.2)
      sess.state }

/-- In-memory mutation performed by append_event before the commit: local
    state update, event appended, last_update_time set to the event's
    timestamp. -/
def appendLocal {V : Type} (sess : SessObj V) (e : Ev V) : SessObj V :=
  let s1 := update_session_state_local sess e
  { s1 with events := s1.events ++ [e], last_update_time := e.timestamp }

/-- Source append_event: partial events short-circuit with no mutation and
    no writes; otherwise the session object is mutated first and the batch
    is committed (the mutation stands even when the commit fails). -/
def append_event {V : Type} (st : Store V) (sess : SessObj V) (e : Ev V) :
    Option (Store V) × SessObj V :=
  if e.partialFlag then (some st, sess)
  else (applyBatch st (buildBatch (appendLocal sess e) e), appendLocal sess e)

/-- Source _merge_state: overlay the app document then the user document
    onto the session state under their tier prefixes; an absent document
    contributes nothing. -/
def merge_state {V : Type} (st : Store V) (sess : SessObj V) : SessObj V :=
  let s1 :=
    match st.appDoc with
    | none => sess
    | some ad =>
      { sess with
        state := ad.foldl (fun m kv => setKey m (appPfxStr ++ kv.1) kv.2) sess.state }
  match st.userDoc with
  | none => s1
  | some ud =>
    { s1 with
      state := ud.foldl (fun m kv => setKey m (userPfxStr ++ kv.1) kv.2) s1.state }

/-- Source create_session: write the session document with the initial
    state stored exactly as given, build the local Session object with the
    creation time as last_update_time, and return it merged. -/
def create_session {V : Type} (st : Store V) (state0 : SDict V) (t : Nat) :
    Store V × SessObj V :=
  let st1 : Store V := { st with sessionDoc := some { state := state0, last_update_time := t } }
  (st1, merge_state st1 ⟨state0, [], t⟩)

/-- Insertion of an event into a timestamp-ascending list. -/
def insertByTs {V : Type} (e : Ev V) : List (Ev V) → List (Ev V)
  | [] => [e]
  | x :: xs => if x.timestamp ≤ e.timestamp then x :: insertByTs e xs else e :: x :: xs

/-- Events ordered by ascending timestamp (the store's order_by timestamp
    query, and the final Python list.sort by timestamp). -/
def sortByTs {V : Type} : List (Ev V) → List (Ev V)
  | [] => []
  | e :: es => insertByTs e (sortByTs es)

/-- GetSessionConfig fields read by get_session, both optional. -/
structure GetSessionConfig where
  after_timestamp : Option Nat
  num_recent_events : Option Nat

/-- Python truthiness of an optional number: None and 0 are falsy. -/
def truthyOpt (o : Option Nat) : Bool :=
  match o with
  | none => false
  | some n => n != 0

/-- Event-query part of get_session, lines 128-157: ascending base query;
    a strict after-timestamp filter when that option is truthy; when the
    recent-count option is truthy the query is rebuilt from events_ref as a
    descending limited query (a descending store query returns the exact
    reverse of the ascending one); and in the recent-count case the loaded
    events are re-sorted ascending at the end. -/
def loadEvents {V : Type} (log : List (Ev V)) (config : Option GetSessionConfig) :
    List (Ev V) :=
  let q0 := sortByTs log
  let q :=
    match config with
    | none => q0
    | some c =>
      let q1 :=
        if truthyOpt c.after_timestamp then
          q0.filter (fun e => c.after_timestamp.getD 0 < e.timestamp)
        else q0
      if truthyOpt c.num_recent_events then
        ((sortByTs log).reverse).take (c.num_recent_events.getD 0)
      else q1
  let recentMode :=
    match config with
    | none => false
    | some c => truthyOpt c.num_recent_events
  if recentMode then sortByTs q else q

/-- Source get_session for a well-shaped stored document (the
    validation-fallback phase is modelled by reconstruct_session below):
    an absent document yields none, events are loaded per the config, and
    _merge_state finishes. -/
def get_session {V : Type} (st : Store V) (config : Option GetSessionConfig) :
    Option (SessObj V) :=
  match st.sessionDoc with
  | none => none
  | some d =>
    let evs := loadEvents (st.eventDocs.map Prod.snd) config
    some (merge_state st { state := d.state, events := evs, last_update_time := d.last_update_time })

/-- One deletion step of delete_session, for its trace. -/
inductive DelOp where
  | delEvent (id : String)
  | delSessionDoc
  deriving DecidableEq

/-- Source _delete_collection as the list of document ids it deletes in
    order: fetch a page of at most batchSize ids, delete each, and recurse
    exactly when the page was full.  With batchSize = 0 the source recurses
    forever over an unchanged collection, so the 0 < batchSize conjunct
    below only totalises that divergent case; the service always passes
    batchSize = 50. -/
def delete_collection (docs : List String) (batchSize : Nat) : List String :=
  if h : 0 < batchSize ∧ batchSize ≤ (docs.take batchSize).length then
    docs.take batchSize ++ delete_collection (docs.drop batchSize) batchSize
  else docs.take batchSize
termination_by docs.length
decreasing_by
  have h2 := h.2
  simp only [List.length_take] at h2
  simp only [List.length_drop]
  omega

/-- Source delete_session as a trace: delete the whole events
    sub-collection page by page (page size 50), then the session document. -/
def delete_session (eventIds : List String) : List DelOp :=
  (delete_collection eventIds 50).map DelOp.delEvent ++ [DelOp.delSessionDoc]

/-- Timestamp of the most recently appended non-partial event, or the
    creation time when none has been appended. -/
def lastNPTime {V : Type} (t0 : Nat) : List (Ev V) → Nat
  | [] => t0
  | e :: es => lastNPTime (if e.partialFlag then t0 else e.timestamp) es

/-- One append_event step on a (store, session) pair; the step fails when
    the batch commit fails. -/
def stepAppend {V : Type} (p : Store V × SessObj V) (e : Ev V) :
    Option (Store V × SessObj V) :=
  (append_event p.1 p.2 e).1.map (fun st => (st, (append_event p.1 p.2 e).2))

/-- Create a session on an empty store at time t0, then append the events
    in order. -/
def runSession {V : Type} (state0 : SDict V) (t0 : Nat) (es : List (Ev V)) :
    Option (Store V × SessObj V) :=
  es.foldlM stepAppend (create_session emptyStore state0 t0)

example : deltaWrite (("app:counter", (1 : Nat))) = some (.mergeApp "counter" 1) := rfl

example : deltaWrite (("temp:x", (1 : Nat))) = none := rfl

example : deltaWrite (("y", (2 : Nat))) = some (.updateSessionField "state.y" 2) := rfl

/-- Lemma: with a positive page size, page-by-page deletion deletes exactly
    the whole collection, in store order. -/
theorem delete_collection_eq_self (b : Nat) (hb : 0 < b) (docs : List String) :
    delete_collection docs b = docs := by
  rw [delete_collection]
  split
  · next h =>
    rw [delete_collection_eq_self b hb (docs.drop b)]
    exact List.take_append_drop b docs
  · next h =>
    have hlen : docs.length ≤ b := by
      by_contra hc
      push_neg at hc
      refine h ⟨hb, ?_⟩
      simp only [List.length_take]
      omega
    exact List.take_of_length_le hlen
termination_by docs.length
decreasing_by
  rename_i h
  have h2 := h.2
  simp only [List.length_take] at h2
  simp only [List.length_drop]
  omega

/-- C7: for every finite event log, delete_session terminates (it is a total
    function here) and its deletion trace deletes every document of the
    events sub-collection, each fetched page individually and in order, and
    only then the session document; this holds for logs smaller and larger
    than the page size 50. -/
theorem delete_session_removes_events_then_doc (eventIds : List String) :
    delete_collection eventIds 50 = eventIds ∧
    delete_session eventIds = eventIds.map DelOp.delEvent ++ [DelOp.delSessionDoc] := by
  have h := delete_collection_eq_self 50 (by omega) eventIds
  exact ⟨h, by rw [delete_session, h]⟩

/-- C3 counterexample: appending a non-partial event whose delta holds the
    prefix-only key "app:" is not dropped: the commit succeeds and writes
    the value under the empty field name in the application document. -/
theorem append_event_stores_empty_named_field :
    (append_event (⟨none, none, some ⟨[], 0⟩, []⟩ : Store Nat) ⟨[], [], 0⟩
        ⟨"e1", 5, false, some ⟨[("app:", 7)]⟩⟩).1.isSome = true ∧
    lookupKey ((((append_event (⟨none, none, some ⟨[], 0⟩, []⟩ : Store Nat) ⟨[], [], 0⟩
        ⟨"e1", 5, false, some ⟨[("app:", 7)]⟩⟩).1.getD emptyStore).appDoc).getD []) ""
      = some 7 := ⟨rfl, rfl⟩

/-- C3 amended: append_event performs no validation of empty or prefix-only
    state-delta keys: a key that is exactly the application (or user) prefix
    is written to that tier document under the empty field name; an empty
    key is routed as a session-tier update of the field path state. with an
    empty remainder; only a key that is exactly the transient prefix yields
    no write, through the ordinary transient skip. -/
theorem prefix_only_and_empty_keys_not_dropped {V : Type} (v : V) :
    deltaWrite (("app:", v)) = some (Write.mergeApp "" v) ∧
    deltaWrite (("user:", v)) = some (Write.mergeUser "" v) ∧
    deltaWrite (("temp:", v)) = none ∧
    deltaWrite (("", v)) = some (Write.updateSessionField "state." v) :=
  ⟨rfl, rfl, rfl, rfl⟩

/-- C2 counterexample: create_session called with the initial state holding
    the transient-prefixed key temp:x persists that key in the session
    document, and the merged session view it returns also contains it. -/
theorem create_session_persists_temp_key :
    ((create_session (emptyStore : Store Nat) [("temp:x", 1)] 7).1.sessionDoc.map
      (fun d => lookupKey d.state "temp:x")) = some (some 1) ∧
    lookupKey (create_session (emptyStore : Store Nat) [("temp:x", 1)] 7).2.state "temp:x"
      = some 1 := ⟨rfl, rfl⟩

theorem lookup_setKey_self {α : Type} (m : List (String × α)) (k : String) (v : α) :
    lookupKey (setKey m k v) k = some v := by
  induction m with
  | nil => simp [setKey, lookupKey]
  | cons kv rest ih =>
    obtain ⟨k1, v1⟩ := kv
    by_cases h : k1 = k
    · simp [setKey, h, lookupKey]
    · simp [setKey, h, lookupKey, ih]

theorem lookup_setKey_ne {α : Type} (m : List (String × α)) (k q : String) (v : α)
    (h : q ≠ k) : lookupKey (setKey m k v) q = lookupKey m q := by
  induction m with
  | nil => simp [setKey, lookupKey, Ne.symm h]
  | cons kv rest ih =>
    obtain ⟨k1, v1⟩ := kv
    by_cases h1 : k1 = k
    · subst h1
      simp [setKey, lookupKey, Ne.symm h]
    · simp [setKey, h1, lookupKey, ih]

theorem setKey_of_lookup {α : Type} (m : List (String × α)) (k : String) (v : α)
    (h : lookupKey m k = some v) : setKey m k v = m := by
  induction m with
  | nil => simp [lookupKey] at h
  | cons kv rest ih =>
    obtain ⟨k1, v1⟩ := kv
    by_cases h1 : k1 = k
    · subst h1
      simp [lookupKey] at h
      simp [setKey, h]
    · simp [lookupKey, h1] at h
      simp [setKey, h1, ih h]

theorem stateFold_cons {α : Type} (m : List (String × α)) (kv : String × α)
    (es : List (String × α)) :
    stateFold m (kv :: es) = stateFold (setKey m kv.1 kv.2) es := rfl

theorem lookup_stateFold_notmem {α : Type} (es : List (String × α))
    (m : List (String × α)) (q : String) (h : q ∉ es.map Prod.fst) :
    lookupKey (stateFold m es) q = lookupKey m q := by
  induction es generalizing m with
  | nil => rfl
  | cons kv rest ih =>
    simp only [List.map_cons, List.mem_cons] at h
    push_neg at h
    rw [stateFold_cons, ih _ h.2, lookup_setKey_ne _ _ _ _ h.1]

theorem lookup_stateFold_mem {α : Type} (es : List (String × α))
    (m : List (String × α)) (k : String) (v : α)
    (hnd : (es.map Prod.fst).Nodup) ( hmem : (k, v) ∈ es) :
    lookupKey (stateFold m es) k = some v := by
  induction es generalizing m with
  | nil => cases hmem
  | cons kv rest ih =>
    rw [stateFold_cons]
    simp only [List.map_cons, List.nodup_cons] at hnd
    rcases List.mem_cons.mp hmem with heq | hmem2
    · subst heq
      rw [lookup_stateFold_notmem _ _ _ hnd.1, lookup_setKey_self]
    · exact ih _ hnd.2 hmem2

theorem stateFold_of_lookup {α : Type} (es : List (String × α))
    (m : List (String × α)) (h : ∀ kv ∈ es, lookupKey m kv.1 = some kv.2) :
    stateFold m es = m := by
  induction es with
  | nil => rfl
  | cons kv rest ih =>
    rw [stateFold_cons, setKey_of_lookup m kv.1 kv.2 (h kv (List.mem_cons_self _ _))]
    exact ih (fun x hx => h x (List.mem_cons_of_mem _ hx))

theorem strData_eq {a b : String} (h : a.data = b.data) : a = b :=
  congrArg String.mk h

theorem strData_append (p x : String) : (p ++ x).data = p.data ++ x.data := by
  cases p
  cases x
  rfl

theorem isPrefixOf_self_append (l r : List Char) : l.isPrefixOf (l ++ r) = true := by
  induction l with
  | nil => simp
  | cons c cs ih => simp [List.isPrefixOf_cons₂, ih]

theorem strStarts_self_append (p x : String) : strStarts (p ++ x) p = true := by
  show (p.data.isPrefixOf (p ++ x).data) = true
  rw [strData_append]
  exact isPrefixOf_self_append _ _

theorem removePfx_append (p x : String) : removePfx (p ++ x) p = x := by
  apply strData_eq
  unfold removePfx
  rw [if_pos (strStarts_self_append p x)]
  show (p ++ x).data.drop p.data.length = x.data
  rw [strData_append]
  exact List.drop_left _ _

theorem strStarts_exists (k p : String) (h : strStarts k p = true) :
    ∃ r : String, k = p ++ r := by
  unfold strStarts at h
  obtain ⟨t, ht⟩ := List.isPrefixOf_iff_prefix.mp h
  refine ⟨⟨t⟩, strData_eq ?_⟩
  rw [strData_append]
  exact ht.symm

theorem removePfx_recover (k p : String) (h : strStarts k p = true) :
    p ++ removePfx k p = k := by
  obtain ⟨r, rfl⟩ := strStarts_exists k p h
  rw [removePfx_append]

theorem removePfx_inj (p k1 k2 : String) (h1 : strStarts k1 p = true)
    (h2 : strStarts k2 p = true) (h : removePfx k1 p = removePfx k2 p) : k1 = k2 := by
  obtain ⟨r1, rfl⟩ := strStarts_exists k1 p h1
  obtain ⟨r2, rfl⟩ := strStarts_exists k2 p h2
  rw [removePfx_append, removePfx_append] at h
  rw [h]

theorem appKey_not_temp (x : String) : strStarts (appPfxStr ++ x) tempPfxStr = false := by
  show (tempPfxStr.data.isPrefixOf (appPfxStr ++ x).data) = false
  rw [strData_append]
  rfl

theorem userKey_not_temp (x : String) : strStarts (userPfxStr ++ x) tempPfxStr = false := by
  show (tempPfxStr.data.isPrefixOf (userPfxStr ++ x).data) = false
  rw [strData_append]
  rfl

theorem userKey_not_app (x : String) : strStarts (userPfxStr ++ x) appPfxStr = false := by
  show (appPfxStr.data.isPrefixOf (userPfxStr ++ x).data) = false
  rw [strData_append]
  rfl

theorem appKey_ne_userKey (x y : String) : appPfxStr ++ x ≠ userPfxStr ++ y := by
  intro h
  have hd : (appPfxStr ++ x).data = (userPfxStr ++ y).data := by rw [h]
  rw [strData_append, strData_append] at hd
  simp [appPfxStr, userPfxStr] at hd

theorem app_not_temp (k : String) (h : strStarts k appPfxStr = true) :
    strStarts k tempPfxStr = false := by
  obtain ⟨r, rfl⟩ := strStarts_exists k appPfxStr h
  exact appKey_not_temp r

theorem user_not_temp (k : String) (h : strStarts k userPfxStr = true) :
    strStarts k tempPfxStr = false := by
  obtain ⟨r, rfl⟩ := strStarts_exists k userPfxStr h
  exact userKey_not_temp r

theorem user_not_app (k : String) (h : strStarts k userPfxStr = true) :
    strStarts k appPfxStr = false := by
  obtain ⟨r, rfl⟩ := strStarts_exists k userPfxStr h
  exact userKey_not_app r

/-- Entries of a tier document as they are inserted into the session view:
    each key under the tier prefix. -/
def pfxEntries {V : Type} (p : String) (doc : SDict V) : SDict V :=
  doc.map (fun kv => (p ++ kv.1, kv.2))

theorem foldl_setKey_pfx {V : Type} (p : String) (doc : SDict V) (m : SDict V) :
    doc.foldl (fun m2 kv => setKey m2 (p ++ kv.1) kv.2) m = stateFold m (pfxEntries p doc) := by
  induction doc generalizing m with
  | nil => rfl
  | cons kv rest ih => simp [pfxEntries, List.foldl_cons, stateFold_cons, ih]

/-- Lemma: merge_state is the two prefixed overlay folds on the session
    state, with absent documents contributing empty folds. -/
theorem merge_state_eq {V : Type} (st : Store V) (sess : SessObj V) :
    merge_state st sess =
      { sess with
        state := stateFold (stateFold sess.state (pfxEntries appPfxStr (st.appDoc.getD [])))
          (pfxEntries userPfxStr (st.userDoc.getD [])) } := by
  obtain ⟨adoc, udoc, sdoc, evdocs⟩ := st
  cases adoc <;> cases udoc <;>
    simp [merge_state, foldl_setKey_pfx, pfxEntries, stateFold]

theorem pfxEntries_keys {V : Type} (p : String) (doc : SDict V) :
    (pfxEntries p doc).map Prod.fst = (doc.map Prod.fst).map (fun k => p ++ k) := by
  simp [pfxEntries, List.map_map]

theorem strAppend_left_inj (p : String) {x y : String} (h : p ++ x = p ++ y) : x = y := by
  apply strData_eq
  have hd := congrArg String.data h
  rw [strData_append, strData_append] at hd
  exact List.append_cancel_left hd

theorem pfxEntries_keys_nodup {V : Type} (p : String) (doc : SDict V)
    (h : (doc.map Prod.fst).Nodup) : ((pfxEntries p doc).map Prod.fst).Nodup := by
  rw [pfxEntries_keys]
  exact List.Nodup.map (fun a b hab => strAppend_left_inj p hab) h

/-- Lemma: overlaying the same two entry lists a second time changes
    nothing, provided each list has distinct keys and their key sets are
    disjoint. -/
theorem stateFold_pfx_idem {V : Type} (m A U : SDict V)
    (hA : (A.map Prod.fst).Nodup) (hU : (U.map Prod.fst).Nodup)
    (hdisj : ∀ ka ∈ A.map Prod.fst, ∀ ku ∈ U.map Prod.fst, ka ≠ ku) :
    stateFold (stateFold (stateFold (stateFold m A) U) A) U = stateFold (stateFold m A) U := by
  have hAlook : ∀ kv ∈ A, lookupKey (stateFold (stateFold m A) U) kv.1 = some kv.2 := by
    intro kv hkv
    have hnotU : kv.1 ∉ U.map Prod.fst := by
      intro hmem
      exact hdisj kv.1 (List.mem_map.mpr ⟨kv, hkv, rfl⟩) kv.1 hmem rfl
    rw [lookup_stateFold_notmem _ _ _ hnotU]
    exact lookup_stateFold_mem _ _ _ _ hA hkv
  rw [stateFold_of_lookup A _ hAlook]
  have hUlook : ∀ kv ∈ U, lookupKey (stateFold (stateFold m A) U) kv.1 = some kv.2 :=
    fun kv hkv => lookup_stateFold_mem _ _ _ _ hU hkv
  exact stateFold_of_lookup U _ hUlook

/-- C6: the state merge is idempotent: with the application and user
    documents unchanged, applying _merge_state twice yields the same
    session as applying it once (each tier document being a dict, its keys
    are distinct). -/
theorem merge_twice_eq_merge_once {V : Type} (st : Store V) (sess : SessObj V)
    (ha : ((st.appDoc.getD []).map Prod.fst).Nodup)
    (hu : ((st.userDoc.getD []).map Prod.fst).Nodup) :
    merge_state st (merge_state st sess) = merge_state st sess := by
  have hA := pfxEntries_keys_nodup appPfxStr _ ha
  have hU := pfxEntries_keys_nodup userPfxStr _ hu
  have hdisj : ∀ ka ∈ (pfxEntries appPfxStr (st.appDoc.getD [])).map Prod.fst,
      ∀ ku ∈ (pfxEntries userPfxStr (st.userDoc.getD [])).map Prod.fst, ka ≠ ku := by
    intro ka hka ku hku
    rw [pfxEntries_keys] at hka hku
    obtain ⟨xa, hxa, rfl⟩ := List.mem_map.mp hka
    obtain ⟨xu, hxu, rfl⟩ := List.mem_map.mp hku
    exact appKey_ne_userKey xa xu
  simp only [merge_state_eq]
  congr 1
  exact stateFold_pfx_idem sess.state _ _ hA hU hdisj

/-- Witness for C6 at a concrete store and session. -/
theorem merge_twice_eq_merge_once_witness :
    ((((⟨some [("a", 1)], some [("b", 2)], none, []⟩ : Store Nat).appDoc.getD []).map
        Prod.fst).Nodup) ∧
    ((((⟨some [("a", 1)], some [("b", 2)], none, []⟩ : Store Nat).userDoc.getD []).map
        Prod.fst).Nodup) ∧
    merge_state (⟨some [("a", 1)], some [("b", 2)], none, []⟩ : Store Nat)
        (merge_state ⟨some [("a", 1)], some [("b", 2)], none, []⟩ ⟨[("x", 9)], [], 3⟩) =
      merge_state (⟨some [("a", 1)], some [("b", 2)], none, []⟩ : Store Nat)
        ⟨[("x", 9)], [], 3⟩ :=
  ⟨by decide, by decide, merge_twice_eq_merge_once _ _ (by decide) (by decide)⟩

/-- C4 counterexample: with both a lower-bound timestamp of 2 and a
    recent-count limit of 2 over a log holding timestamps 1 and 2, the
    returned list is not restricted to timestamps strictly above 2: the
    recency branch rebuilds the query and drops the filter. -/
theorem after_filter_dropped_when_limited :
    ¬ (∀ e ∈ loadEvents [(⟨"e1", 1, false, none⟩ : Ev Nat), ⟨"e2", 2, false, none⟩]
        (some ⟨some 2, some 2⟩), 2 < e.timestamp) := by
  intro h
  have heq : loadEvents [(⟨"e1", 1, false, none⟩ : Ev Nat), ⟨"e2", 2, false, none⟩]
      (some ⟨some 2, some 2⟩) =
      [⟨"e1", 1, false, none⟩, ⟨"e2", 2, false, none⟩] := rfl
  have hmem : (⟨"e1", 1, false, none⟩ : Ev Nat) ∈
      loadEvents [(⟨"e1", 1, false, none⟩ : Ev Nat), ⟨"e2", 2, false, none⟩]
        (some ⟨some 2, some 2⟩) := by
    rw [heq]
    exact List.mem_cons_self _ _
  exact absurd (h _ hmem) (by decide)

/-- C4 amended: when only a nonzero lower-bound timestamp is specified, the
    returned list is exactly the timestamp-ascending log filtered to events
    with timestamp strictly above the bound, so only such events are
    included; but when a nonzero recent-count limit is also specified,
    get_session rebuilds the query for the recency fetch and the
    lower-bound filter is ignored: the result is identical to querying with
    the limit alone. -/
theorem after_filter_behavior {V : Type} (log : List (Ev V)) (t n : Nat)
    (ht : t ≠ 0) (hn : n ≠ 0) :
    loadEvents log (some ⟨some t, none⟩) =
      (sortByTs log).filter (fun e => t < e.timestamp) ∧
    (∀ e ∈ loadEvents log (some ⟨some t, none⟩), t < e.timestamp) ∧
    loadEvents log (some ⟨some t, some n⟩) = loadEvents log (some ⟨none, some n⟩) := by
  have heq : loadEvents log (some ⟨some t, none⟩) =
      (sortByTs log).filter (fun e => t < e.timestamp) := by
    simp [loadEvents, truthyOpt, ht]
  refine ⟨heq, ?_, ?_⟩
  · intro e he
    rw [heq] at he
    exact of_decide_eq_true (List.mem_filter.mp he).2
  · simp [loadEvents, truthyOpt, ht, hn]

/-- Witness for C4 amended at a one-event log, bound 2 and limit 1. -/
theorem after_filter_behavior_witness :
    (2 : Nat) ≠ 0 ∧ (1 : Nat) ≠ 0 ∧
    (loadEvents [(⟨"e1", 1, false, none⟩ : Ev Nat)] (some ⟨some 2, none⟩) =
       (sortByTs [(⟨"e1", 1, false, none⟩ : Ev Nat)]).filter (fun e => 2 < e.timestamp) ∧
     (∀ e ∈ loadEvents [(⟨"e1", 1, false, none⟩ : Ev Nat)] (some ⟨some 2, none⟩),
        2 < e.timestamp) ∧
     loadEvents [(⟨"e1", 1, false, none⟩ : Ev Nat)] (some ⟨some 2, some 1⟩) =
       loadEvents [(⟨"e1", 1, false, none⟩ : Ev Nat)] (some ⟨none, some 1⟩)) :=
  ⟨by decide, by decide, after_filter_behavior _ 2 1 (by decide) (by decide)⟩

/-- Timestamp order on events. -/
def tsLe {V : Type} (a b : Ev V) : Prop := a.timestamp ≤ b.timestamp

theorem insertByTs_perm {V : Type} (e : Ev V) (l : List (Ev V)) :
    (insertByTs e l).Perm (e :: l) := by
  induction l with
  | nil => exact List.Perm.refl _
  | cons x xs ih =>
    by_cases h : x.timestamp ≤ e.timestamp
    · simp only [insertByTs, if_pos h]
      exact (ih.cons x).trans (List.Perm.swap e x xs)
    · simp only [insertByTs, if_neg h]
      exact List.Perm.refl _

theorem sortByTs_perm {V : Type} (l : List (Ev V)) : (sortByTs l).Perm l := by
  induction l with
  | nil => exact List.Perm.refl _
  | cons e es ih => exact (insertByTs_perm e (sortByTs es)).trans (ih.cons e)

theorem insertByTs_sorted {V : Type} (e : Ev V) (l : List (Ev V))
    (h : l.Pairwise tsLe) : (insertByTs e l).Pairwise tsLe := by
  induction l with
  | nil => simp [insertByTs, tsLe]
  | cons x xs ih =>
    rcases List.pairwise_cons.mp h with ⟨hx, hxs⟩
    by_cases hc : x.timestamp ≤ e.timestamp
    · simp only [insertByTs, if_pos hc]
      refine List.pairwise_cons.mpr ⟨?_, ih hxs⟩
      intro b hb
      have hmem := (insertByTs_perm e xs).mem_iff.mp hb
      rcases List.mem_cons.mp hmem with rfl | hbxs
      · exact hc
      · exact hx b hbxs
    · simp only [insertByTs, if_neg hc]
      push_neg at hc
      refine List.pairwise_cons.mpr ⟨?_, h⟩
      intro b hb
      rcases List.mem_cons.mp hb with rfl | hbxs
      · exact Nat.le_of_lt hc
      · exact Nat.le_trans (Nat.le_of_lt hc) (hx b hbxs)

theorem sortByTs_sorted {V : Type} (l : List (Ev V)) : (sortByTs l).Pairwise tsLe := by
  induction l with
  | nil => exact List.Pairwise.nil
  | cons e es ih => exact insertByTs_sorted e (sortByTs es) ih

/-- Lemma: the first N of a reversed list are, as a multiset, the last
    min(N, length) of the list. -/
theorem take_reverse_perm_drop {α : Type} (S : List α) (N : Nat) :
    (S.reverse.take N).Perm (S.drop (S.length - min N S.length)) := by
  by_cases h : N ≤ S.length
  · have hmin : min N S.length = N := Nat.min_eq_left h
    rw [hmin]
    have hrev : S.reverse = (S.drop (S.length - N)).reverse ++ (S.take (S.length - N)).reverse := by
      conv_lhs => rw [(List.take_append_drop (S.length - N) S).symm]
      rw [List.reverse_append]
    have hlen : (S.drop (S.length - N)).reverse.length = N := by
      simp only [List.length_reverse, List.length_drop]
      omega
    rw [hrev, List.take_left' hlen]
    exact List.reverse_perm _
  · push_neg at h
    have hmin : min N S.length = S.length := Nat.min_eq_right (Nat.le_of_lt h)
    rw [hmin, Nat.sub_self, List.drop_zero]
    rw [List.take_of_length_le (by simp only [List.length_reverse]; omega)]
    exact List.reverse_perm S

theorem merge_state_events {V : Type} (st : Store V) (s : SessObj V) :
    (merge_state st s).events = s.events := by rw [merge_state_eq]

theorem merge_state_last_update_time {V : Type} (st : Store V) (s : SessObj V) :
    (merge_state st s).last_update_time = s.last_update_time := by rw [merge_state_eq]

/-- C5: with a recent-count limit N over an event log of M documents,
    get_session returns a session whose event list has exactly min(N, M)
    events, is sorted in ascending timestamp order even though the store
    was queried in descending order, and is exactly (as a multiset) the
    last min(N, M) of the timestamp-ascending log — the events with the
    largest timestamps. -/
theorem recent_events_query {V : Type} (st : Store V) (d : SessDoc V) (N : Nat)
    (hdoc : st.sessionDoc = some d) (hN : 0 < N) :
    ∃ sess, get_session st (some ⟨none, some N⟩) = some sess ∧
      sess.events.length = min N st.eventDocs.length ∧
      sess.events.Pairwise tsLe ∧
      sess.events.Perm ((sortByTs (st.eventDocs.map Prod.snd)).drop
        (st.eventDocs.length - min N st.eventDocs.length)) := by
  have hNne : N ≠ 0 := Nat.pos_iff_ne_zero.mp hN
  have hget : get_session st (some ⟨none, some N⟩) =
      some (merge_state st ⟨d.state,
        loadEvents (st.eventDocs.map Prod.snd) (some ⟨none, some N⟩),
        d.last_update_time⟩) := by
    simp only [get_session, hdoc]
  have hload : loadEvents (st.eventDocs.map Prod.snd) (some ⟨none, some N⟩) =
      sortByTs ((sortByTs (st.eventDocs.map Prod.snd)).reverse.take N) := by
    simp [loadEvents, truthyOpt, hNne]
  have hev : (merge_state st ⟨d.state,
      loadEvents (st.eventDocs.map Prod.snd) (some ⟨none, some N⟩),
      d.last_update_time⟩).events =
      sortByTs ((sortByTs (st.eventDocs.map Prod.snd)).reverse.take N) := by
    rw [merge_state_events, hload]
  refine ⟨_, hget, ?_, ?_, ?_⟩
  · rw [hev, (sortByTs_perm _).length_eq]
    simp only [List.length_take, List.length_reverse]
    rw [(sortByTs_perm _).length_eq, List.length_map]
  · rw [hev]
    exact sortByTs_sorted _
  · rw [hev]
    have hS : (sortByTs (st.eventDocs.map Prod.snd)).length = st.eventDocs.length := by
      rw [(sortByTs_perm _).length_eq, List.length_map]
    have hperm := take_reverse_perm_drop (sortByTs (st.eventDocs.map Prod.snd)) N
    rw [hS] at hperm
    exact (sortByTs_perm _).trans hperm

/-- Witness for C5 at a three-event log and limit 2. -/
theorem recent_events_query_witness :
    (⟨none, none, some ⟨[], 0⟩,
        [("a", ⟨"a", 3, false, none⟩), ("b", ⟨"b", 1, false, none⟩),
         ("c", ⟨"c", 2, false, none⟩)]⟩ : Store Nat).sessionDoc = some ⟨[], 0⟩ ∧
    0 < 2 ∧
    (∃ sess, get_session (⟨none, none, some ⟨[], 0⟩,
        [("a", ⟨"a", 3, false, none⟩), ("b", ⟨"b", 1, false, none⟩),
         ("c", ⟨"c", 2, false, none⟩)]⟩ : Store Nat) (some ⟨none, some 2⟩) = some sess ∧
      sess.events.length = min 2 (⟨none, none, some ⟨[], 0⟩,
        [("a", ⟨"a", 3, false, none⟩), ("b", ⟨"b", 1, false, none⟩),
         ("c", ⟨"c", 2, false, none⟩)]⟩ : Store Nat).eventDocs.length ∧
      sess.events.Pairwise tsLe ∧
      sess.events.Perm ((sortByTs ((⟨none, none, some ⟨[], 0⟩,
        [("a", ⟨"a", 3, false, none⟩), ("b", ⟨"b", 1, false, none⟩),
         ("c", ⟨"c", 2, false, none⟩)]⟩ : Store Nat).eventDocs.map Prod.snd)).drop
        ((⟨none, none, some ⟨[], 0⟩,
        [("a", ⟨"a", 3, false, none⟩), ("b", ⟨"b", 1, false, none⟩),
         ("c", ⟨"c", 2, false, none⟩)]⟩ : Store Nat).eventDocs.length -
          min 2 (⟨none, none, some ⟨[], 0⟩,
        [("a", ⟨"a", 3, false, none⟩), ("b", ⟨"b", 1, false, none⟩),
         ("c", ⟨"c", 2, false, none⟩)]⟩ : Store Nat).eventDocs.length))) :=
  ⟨rfl, by omega, recent_events_query _ _ 2 rfl (by omega)⟩

/-- Total variant of applyWrite used for reasoning: on a store whose
    session document exists it agrees with applyWrite; updates on a
    missing document leave the store unchanged instead of failing. -/
def applyWriteT {V : Type} (st : Store V) : Write V → Store V
  | .setEvent e => { st with eventDocs := setKey st.eventDocs e.id e }
  | .mergeApp k v => { st with appDoc := some (setKey (st.appDoc.getD []) k v) }
  | .mergeUser k v => { st with userDoc := some (setKey (st.userDoc.getD []) k v) }
  | .updateSessionField path v =>
    match st.sessionDoc with
    | none => st
    | some d =>
      { st with sessionDoc := some { d with state := setKey d.state (removePfx path stateFieldPfx) v } }
  | .updateTime t =>
    match st.sessionDoc with
    | none => st
    | some d => { st with sessionDoc := some { d with last_update_time := t } }

theorem applyWrite_eq_total {V : Type} (st : Store V) (w : Write V)
    (h : st.sessionDoc.isSome) : applyWrite st w = some (applyWriteT st w) := by
  cases w with
  | setEvent e => rfl
  | mergeApp k v => rfl
  | mergeUser k v => rfl
  | updateSessionField p v =>
    obtain ⟨d, hd⟩ := Option.isSome_iff_exists.mp h
    simp [applyWrite, applyWriteT, hd]
  | updateTime t =>
    obtain ⟨d, hd⟩ := Option.isSome_iff_exists.mp h
    simp [applyWrite, applyWriteT, hd]

theorem applyWriteT_sessionDoc_isSome {V : Type} (st : Store V) (w : Write V)
    (h : st.sessionDoc.isSome) : (applyWriteT st w).sessionDoc.isSome := by
  obtain ⟨d, hd⟩ := Option.isSome_iff_exists.mp h
  cases w <;> simp [applyWriteT, hd]

theorem applyBatch_eq_total {V : Type} (ws : List (Write V)) (st : Store V)
    (h : st.sessionDoc.isSome) :
    applyBatch st ws = some (ws.foldl applyWriteT st) := by
  induction ws generalizing st with
  | nil => rfl
  | cons w rest ih =>
    show (applyWrite st w >>= fun st2 => rest.foldlM applyWrite st2) = _
    rw [applyWrite_eq_total st w h]
    show applyBatch (applyWriteT st w) rest = _
    rw [ih _ (applyWriteT_sessionDoc_isSome st w h), List.foldl_cons]

/-- Application-document writes of a batch. -/
def appkv {V : Type} : Write V → Option (String × V)
  | .mergeApp k v => some (k, v)
  | _ => none

/-- User-document writes of a batch. -/
def userkv {V : Type} : Write V → Option (String × V)
  | .mergeUser k v => some (k, v)
  | _ => none

/-- Repeated set-with-merge on an optional document: the first write
    creates the document when absent. -/
def mergeFold {V : Type} (o : Option (SDict V)) (es : SDict V) : Option (SDict V) :=
  es.foldl (fun a kv => some (setKey (a.getD []) kv.1 kv.2)) o

theorem foldl_applyWriteT_appDoc {V : Type} (ws : List (Write V)) (st : Store V) :
    (ws.foldl applyWriteT st).appDoc = mergeFold st.appDoc (ws.filterMap appkv) := by
  induction ws generalizing st with
  | nil => rfl
  | cons w rest ih =>
    rw [List.foldl_cons, ih, List.filterMap_cons]
    cases w with
    | setEvent e => rfl
    | mergeApp k v => rfl
    | mergeUser k v => rfl
    | updateSessionField p v =>
      cases hsd : st.sessionDoc <;> simp [applyWriteT, appkv, hsd]
    | updateTime t =>
      cases hsd : st.sessionDoc <;> simp [applyWriteT, appkv, hsd]

theorem foldl_applyWriteT_userDoc {V : Type} (ws : List (Write V)) (st : Store V) :
    (ws.foldl applyWriteT st).userDoc = mergeFold st.userDoc (ws.filterMap userkv) := by
  induction ws generalizing st with
  | nil => rfl
  | cons w rest ih =>
    rw [List.foldl_cons, ih, List.filterMap_cons]
    cases w with
    | setEvent e => rfl
    | mergeApp k v => rfl
    | mergeUser k v => rfl
    | updateSessionField p v =>
      cases hsd : st.sessionDoc <;> simp [applyWriteT, userkv, hsd]
    | updateTime t =>
      cases hsd : st.sessionDoc <;> simp [applyWriteT, userkv, hsd]

/-- Effect of one write on the session document alone. -/
def sessStep {V : Type} (o : Option (SessDoc V)) (w : Write V) : Option (SessDoc V) :=
  match o, w with
  | some d, .updateSessionField path v =>
    some { d with state := setKey d.state (removePfx path stateFieldPfx) v }
  | some d, .updateTime t => some { d with last_update_time := t }
  | o, _ => o

theorem foldl_applyWriteT_sessionDoc {V : Type} (ws : List (Write V)) (st : Store V) :
    (ws.foldl applyWriteT st).sessionDoc = ws.foldl sessStep st.sessionDoc := by
  induction ws generalizing st with
  | nil => rfl
  | cons w rest ih =>
    rw [List.foldl_cons, List.foldl_cons, ih]
    congr 1
    cases w <;> cases hsd : st.sessionDoc <;> simp [applyWriteT, sessStep, hsd]

/-- Delta entries routed to the application document, with stripped keys. -/
def appEntries {V : Type} (delta : SDict V) : SDict V :=
  delta.filterMap (fun kv =>
    if strStarts kv.1 tempPfxStr then none
    else if strStarts kv.1 appPfxStr then some (removePfx kv.1 appPfxStr, kv.2)
    else none)

/-- Delta entries routed to the user document, with stripped keys. -/
def userEntries {V : Type} (delta : SDict V) : SDict V :=
  delta.filterMap (fun kv =>
    if strStarts kv.1 tempPfxStr then none
    else if strStarts kv.1 appPfxStr then none
    else if strStarts kv.1 userPfxStr then some (removePfx kv.1 userPfxStr, kv.2)
    else none)

/-- Delta entries routed to the session state map, with their full keys. -/
def sessEntries {V : Type} (delta : SDict V) : SDict V :=
  delta.filterMap (fun kv =>
    if strStarts kv.1 tempPfxStr then none
    else if strStarts kv.1 appPfxStr then none
    else if strStarts kv.1 userPfxStr then none
    else some kv)

theorem filterMap_deltaWrite_appkv {V : Type} (delta : SDict V) :
    (delta.filterMap deltaWrite).filterMap appkv = appEntries delta := by
  induction delta with
  | nil => rfl
  | cons kv rest ih =>
    by_cases h1 : strStarts kv.1 tempPfxStr
    · simp [deltaWrite, appkv, appEntries, List.filterMap_cons, h1] at ih ⊢
      exact ih
    · by_cases h2 : strStarts kv.1 appPfxStr
      · simp [deltaWrite, appkv, appEntries, List.filterMap_cons, h1, h2] at ih ⊢
        exact ih
      · by_cases h3 : strStarts kv.1 userPfxStr
        · simp [deltaWrite, appkv, appEntries, List.filterMap_cons, h1, h2, h3] at ih ⊢
          exact ih
        · simp [deltaWrite, appkv, appEntries, List.filterMap_cons, h1, h2, h3] at ih ⊢
          exact ih

theorem filterMap_deltaWrite_userkv {V : Type} (delta : SDict V) :
    (delta.filterMap deltaWrite).filterMap userkv = userEntries delta := by
  induction delta with
  | nil => rfl
  | cons kv rest ih =>
    by_cases h1 : strStarts kv.1 tempPfxStr
    · simp [deltaWrite, userkv, userEntries, List.filterMap_cons, h1] at ih ⊢
      exact ih
    · by_cases h2 : strStarts kv.1 appPfxStr
      · simp [deltaWrite, userkv, userEntries, List.filterMap_cons, h1, h2] at ih ⊢
        exact ih
      · by_cases h3 : strStarts kv.1 userPfxStr
        · simp [deltaWrite, userkv, userEntries, List.filterMap_cons, h1, h2, h3] at ih ⊢
          exact ih
        · simp [deltaWrite, userkv, userEntries, List.filterMap_cons, h1, h2, h3] at ih ⊢
          exact ih

theorem sessStep_fold_deltaWrite {V : Type} (delta : SDict V) (d : SessDoc V) :
    (delta.filterMap deltaWrite).foldl sessStep (some d) =
      some { d with state := stateFold d.state (sessEntries delta) } := by
  induction delta generalizing d with
  | nil => rfl
  | cons kv rest ih =>
    by_cases h1 : strStarts kv.1 tempPfxStr
    · have hdw : deltaWrite kv = none := by simp [deltaWrite, h1]
      have hse : sessEntries (kv :: rest) = sessEntries rest :=
        List.filterMap_cons_none (by simp [h1])
      rw [List.filterMap_cons_none hdw, hse]
      exact ih d
    · by_cases h2 : strStarts kv.1 appPfxStr
      · have hdw : deltaWrite kv = some (Write.mergeApp (removePfx kv.1 appPfxStr) kv.2) := by
          simp [deltaWrite, h1, h2]
        have hse : sessEntries (kv :: rest) = sessEntries rest :=
          List.filterMap_cons_none (by simp [h1, h2])
        rw [List.filterMap_cons_some hdw, hse, List.foldl_cons,
          show sessStep (some d) (Write.mergeApp (removePfx kv.1 appPfxStr) kv.2) = some d from rfl]
        exact ih d
      · by_cases h3 : strStarts kv.1 userPfxStr
        · have hdw : deltaWrite kv =
              some (Write.mergeUser (removePfx kv.1 userPfxStr) kv.2) := by
            simp [deltaWrite, h1, h2, h3]
          have hse : sessEntries (kv :: rest) = sessEntries rest :=
            List.filterMap_cons_none (by simp [h1, h2, h3])
          rw [List.filterMap_cons_some hdw, hse, List.foldl_cons,
            show sessStep (some d) (Write.mergeUser (removePfx kv.1 userPfxStr) kv.2) = some d
              from rfl]
          exact ih d
        · have hdw : deltaWrite kv =
              some (Write.updateSessionField (stateFieldPfx ++ kv.1) kv.2) := by
            simp [deltaWrite, h1, h2, h3]
          have hse : sessEntries (kv :: rest) = kv :: sessEntries rest :=
            List.filterMap_cons_some (by simp [h1, h2, h3])
          have hstep : sessStep (some d) (Write.updateSessionField (stateFieldPfx ++ kv.1) kv.2) =
              some { d with state := setKey d.state kv.1 kv.2 } := by
            simp [sessStep, removePfx_append]
          rw [List.filterMap_cons_some hdw, hse, List.foldl_cons, hstep,
            ih { d with state := setKey d.state kv.1 kv.2 }, stateFold_cons]

theorem mergeFold_getD {V : Type} (es : SDict V) (o : Option (SDict V)) :
    (mergeFold o es).getD [] = stateFold (o.getD []) es := by
  induction es generalizing o with
  | nil => rfl
  | cons kv rest ih =>
    show (mergeFold (some (setKey (o.getD []) kv.1 kv.2)) rest).getD [] = _
    rw [ih, stateFold_cons]
    rfl

/-- Key-level routing to the application document. -/
def gkApp (k : String) : Option String :=
  if strStarts k tempPfxStr then none
  else if strStarts k appPfxStr then some (removePfx k appPfxStr)
  else none

/-- Key-level routing to the user document. -/
def gkUser (k : String) : Option String :=
  if strStarts k tempPfxStr then none
  else if strStarts k appPfxStr then none
  else if strStarts k userPfxStr then some (removePfx k userPfxStr)
  else none

theorem appEntries_keys_eq {V : Type} (delta : SDict V) :
    (appEntries delta).map Prod.fst = (delta.map Prod.fst).filterMap gkApp := by
  show (List.filterMap _ delta).map Prod.fst = _
  rw [List.map_filterMap, List.filterMap_map]
  congr 1
  funext kv
  by_cases h1 : strStarts kv.1 tempPfxStr <;> by_cases h2 : strStarts kv.1 appPfxStr <;>
    simp [gkApp, h1, h2, Function.comp]

theorem userEntries_keys_eq {V : Type} (delta : SDict V) :
    (userEntries delta).map Prod.fst = (delta.map Prod.fst).filterMap gkUser := by
  show (List.filterMap _ delta).map Prod.fst = _
  rw [List.map_filterMap, List.filterMap_map]
  congr 1
  funext kv
  by_cases h1 : strStarts kv.1 tempPfxStr <;> by_cases h2 : strStarts kv.1 appPfxStr <;>
    by_cases h3 : strStarts kv.1 userPfxStr <;>
    simp [gkUser, h1, h2, h3, Function.comp]

theorem gkApp_inj (a a2 b : String) (hb : b ∈ gkApp a) (hb2 : b ∈ gkApp a2) : a = a2 := by
  unfold gkApp at hb hb2
  by_cases h1 : strStarts a tempPfxStr
  · simp [h1] at hb
  by_cases h2 : strStarts a appPfxStr
  · by_cases h3 : strStarts a2 tempPfxStr
    · simp [h3] at hb2
    by_cases h4 : strStarts a2 appPfxStr
    · simp [h1, h2, h3, h4] at hb hb2
      exact removePfx_inj appPfxStr a a2 h2 h4 (hb.trans hb2.symm)
    · simp [h3, h4] at hb2
  · simp [h1, h2] at hb

theorem gkUser_inj (a a2 b : String) (hb : b ∈ gkUser a) (hb2 : b ∈ gkUser a2) : a = a2 := by
  unfold gkUser at hb hb2
  by_cases h1 : strStarts a tempPfxStr
  · simp [h1] at hb
  by_cases h2 : strStarts a appPfxStr
  · simp [h1, h2] at hb
  by_cases h3 : strStarts a userPfxStr
  · by_cases h4 : strStarts a2 tempPfxStr
    · simp [h4] at hb2
    by_cases h5 : strStarts a2 appPfxStr
    · simp [h4, h5] at hb2
    by_cases h6 : strStarts a2 userPfxStr
    · simp [h1, h2, h3, h4, h5, h6] at hb hb2
      exact removePfx_inj userPfxStr a a2 h3 h6 (hb.trans hb2.symm)
    · simp [h4, h5, h6] at hb2
  · simp [h1, h2, h3] at hb

theorem appEntries_keys_nodup {V : Type} (delta : SDict V)
    (hnd : (delta.map Prod.fst).Nodup) : ((appEntries delta).map Prod.fst).Nodup := by
  rw [appEntries_keys_eq]
  exact List.Nodup.filterMap gkApp_inj hnd

theorem userEntries_keys_nodup {V : Type} (delta : SDict V)
    (hnd : (delta.map Prod.fst).Nodup) : ((userEntries delta).map Prod.fst).Nodup := by
  rw [userEntries_keys_eq]
  exact List.Nodup.filterMap gkUser_inj hnd

theorem sessEntries_sublist {V : Type} (delta : SDict V) :
    (sessEntries delta).Sublist delta := by
  induction delta with
  | nil => simp [sessEntries]
  | cons kv rest ih =>
    by_cases h1 : strStarts kv.1 tempPfxStr
    · rw [show sessEntries (kv :: rest) = sessEntries rest from
        List.filterMap_cons_none (by simp [h1])]
      exact ih.cons kv
    · by_cases h2 : strStarts kv.1 appPfxStr
      · rw [show sessEntries (kv :: rest) = sessEntries rest from
          List.filterMap_cons_none (by simp [h1, h2])]
        exact ih.cons kv
      · by_cases h3 : strStarts kv.1 userPfxStr
        · rw [show sessEntries (kv :: rest) = sessEntries rest from
            List.filterMap_cons_none (by simp [h1, h2, h3])]
          exact ih.cons kv
        · rw [show sessEntries (kv :: rest) = kv :: sessEntries rest from
            List.filterMap_cons_some (by simp [h1, h2, h3])]
          exact ih.cons₂ kv

theorem sessEntries_keys_nodup {V : Type} (delta : SDict V)
    (hnd : (delta.map Prod.fst).Nodup) : ((sessEntries delta).map Prod.fst).Nodup :=
  List.Nodup.sublist ((sessEntries_sublist delta).map Prod.fst) hnd

theorem appEntries_mem {V : Type} (delta : SDict V) (kv : String × V) (hmem : kv ∈ delta)
    (h2 : strStarts kv.1 appPfxStr = true) :
    (removePfx kv.1 appPfxStr, kv.2) ∈ appEntries delta := by
  have h1 : strStarts kv.1 tempPfxStr = false := app_not_temp _ h2
  exact List.mem_filterMap.mpr ⟨kv, hmem, by simp [h1, h2]⟩

theorem userEntries_mem {V : Type} (delta : SDict V) (kv : String × V) (hmem : kv ∈ delta)
    (h3 : strStarts kv.1 userPfxStr = true) :
    (removePfx kv.1 userPfxStr, kv.2) ∈ userEntries delta := by
  have h1 : strStarts kv.1 tempPfxStr = false := user_not_temp _ h3
  have h2 : strStarts kv.1 appPfxStr = false := user_not_app _ h3
  exact List.mem_filterMap.mpr ⟨kv, hmem, by simp [h1, h2, h3]⟩

theorem sessEntries_mem {V : Type} (delta : SDict V) (kv : String × V) (hmem : kv ∈ delta)
    (h1 : strStarts kv.1 tempPfxStr = false) (h2 : strStarts kv.1 appPfxStr = false)
    (h3 : strStarts kv.1 userPfxStr = false) : kv ∈ sessEntries delta :=
  List.mem_filterMap.mpr ⟨kv, hmem, by simp [h1, h2, h3]⟩

/-- Lookup in an optional document: an absent document has no fields. -/
def lookupOpt {V : Type} (o : Option (SDict V)) (q : String) : Option V :=
  lookupKey (o.getD []) q

theorem lookupOpt_mergeFold {V : Type} (o : Option (SDict V)) (es : SDict V) (q : String) :
    lookupOpt (mergeFold o es) q = lookupKey (stateFold (o.getD []) es) q := by
  unfold lookupOpt
  rw [mergeFold_getD]

/-- C1: for a non-partial event with a state delta, append_event commits one
    batch whose writes route every delta key by its prefix: app-prefixed
    keys are upserted into the application document under the stripped key,
    user-prefixed keys are upserted into the user document under the
    stripped key, unprefixed keys become field-level updates of the session
    document state map, temp-prefixed keys contribute no write; and in each
    tier every field not written by the delta keeps its previous value. -/
theorem append_event_routes_delta {V : Type} (st : Store V) (sess : SessObj V) (e : Ev V)
    (d : SessDoc V) (hpf : e.partialFlag = false) (hdoc : st.sessionDoc = some d)
    (hnd : ((deltaOf e).map Prod.fst).Nodup) :
    ∃ st2, (append_event st sess e).1 = some st2 ∧
      (∀ kv ∈ deltaOf e,
        (strStarts kv.1 tempPfxStr = true → deltaWrite kv = none) ∧
        (strStarts kv.1 appPfxStr = true →
          lookupOpt st2.appDoc (removePfx kv.1 appPfxStr) = some kv.2) ∧
        (strStarts kv.1 userPfxStr = true →
          lookupOpt st2.userDoc (removePfx kv.1 userPfxStr) = some kv.2) ∧
        (strStarts kv.1 tempPfxStr = false → strStarts kv.1 appPfxStr = false →
          strStarts kv.1 userPfxStr = false →
          ∃ d2, st2.sessionDoc = some d2 ∧ lookupKey d2.state kv.1 = some kv.2)) ∧
      (∀ q, q ∉ (appEntries (deltaOf e)).map Prod.fst →
        lookupOpt st2.appDoc q = lookupOpt st.appDoc q) ∧
      (∀ q, q ∉ (userEntries (deltaOf e)).map Prod.fst →
        lookupOpt st2.userDoc q = lookupOpt st.userDoc q) ∧
      (∀ q, q ∉ (sessEntries (deltaOf e)).map Prod.fst →
        ∃ d2, st2.sessionDoc = some d2 ∧ lookupKey d2.state q = lookupKey d.state q) := by
  have happly : (append_event st sess e).1 =
      applyBatch st (buildBatch (appendLocal sess e) e) := by
    simp [append_event, hpf]
  have hsome : st.sessionDoc.isSome := by rw [hdoc]; rfl
  have htot := applyBatch_eq_total (buildBatch (appendLocal sess e) e) st hsome
  have happ : ((buildBatch (appendLocal sess e) e).foldl applyWriteT st).appDoc =
      mergeFold st.appDoc (appEntries (deltaOf e)) := by
    rw [foldl_applyWriteT_appDoc]
    congr 1
    show (Write.setEvent e ::
      ((deltaOf e).filterMap deltaWrite ++
        [Write.updateTime (appendLocal sess e).last_update_time])).filterMap appkv = _
    rw [List.filterMap_cons_none rfl, List.filterMap_append,
      show ([Write.updateTime (appendLocal sess e).last_update_time] :
        List (Write V)).filterMap appkv = [] from rfl,
      List.append_nil]
    exact filterMap_deltaWrite_appkv _
  have huser : ((buildBatch (appendLocal sess e) e).foldl applyWriteT st).userDoc =
      mergeFold st.userDoc (userEntries (deltaOf e)) := by
    rw [foldl_applyWriteT_userDoc]
    congr 1
    show (Write.setEvent e ::
      ((deltaOf e).filterMap deltaWrite ++
        [Write.updateTime (appendLocal sess e).last_update_time])).filterMap userkv = _
    rw [List.filterMap_cons_none rfl, List.filterMap_append,
      show ([Write.updateTime (appendLocal sess e).last_update_time] :
        List (Write V)).filterMap userkv = [] from rfl,
      List.append_nil]
    exact filterMap_deltaWrite_userkv _
  have hsessdoc : ((buildBatch (appendLocal sess e) e).foldl applyWriteT st).sessionDoc =
      some { state := stateFold d.state (sessEntries (deltaOf e)),
             last_update_time := (appendLocal sess e).last_update_time } := by
    rw [foldl_applyWriteT_sessionDoc, hdoc]
    show ((Write.setEvent e ::
      ((deltaOf e).filterMap deltaWrite ++
        [Write.updateTime (appendLocal sess e).last_update_time]))).foldl sessStep (some d) = _
    rw [List.foldl_cons, show sessStep (some d) (Write.setEvent e) = some d from rfl,
      List.foldl_append, sessStep_fold_deltaWrite]
    rfl
  refine ⟨(buildBatch (appendLocal sess e) e).foldl applyWriteT st,
    by rw [happly, htot], ?_, ?_, ?_, ?_⟩
  · intro kv hkv
    refine ⟨?_, ?_, ?_, ?_⟩
    · intro ht
      simp [deltaWrite, ht]
    · intro ha
      rw [happ, lookupOpt_mergeFold]
      exact lookup_stateFold_mem _ _ _ _ (appEntries_keys_nodup _ hnd)
        (appEntries_mem _ kv hkv ha)
    · intro hu
      rw [huser, lookupOpt_mergeFold]
      exact lookup_stateFold_mem _ _ _ _ (userEntries_keys_nodup _ hnd)
        (userEntries_mem _ kv hkv hu)
    · intro h1 h2 h3
      exact ⟨_, hsessdoc, lookup_stateFold_mem _ _ _ _ (sessEntries_keys_nodup _ hnd)
        (sessEntries_mem _ kv hkv h1 h2 h3)⟩
  · intro q hq
    rw [happ, lookupOpt_mergeFold, lookup_stateFold_notmem _ _ _ hq]
    rfl
  · intro q hq
    rw [huser, lookupOpt_mergeFold, lookup_stateFold_notmem _ _ _ hq]
    rfl
  · intro q hq
    exact ⟨_, hsessdoc, lookup_stateFold_notmem _ _ _ hq⟩

/-- Concrete store for the C1 witness. -/
def c1St : Store Nat := ⟨some [("z", 7)], none, some ⟨[("x", 0), ("w", 5)], 0⟩, []⟩

/-- Concrete event for the C1 witness, with one delta key per tier. -/
def c1Ev : Ev Nat :=
  ⟨"e1", 9, false, some ⟨[("temp:t", 1), ("app:a", 2), ("user:u", 3), ("x", 4)]⟩⟩

/-- Concrete session document for the C1 witness. -/
def c1Doc : SessDoc Nat := ⟨[("x", 0), ("w", 5)], 0⟩

/-- Witness for C1 at a concrete store, session, and four-key delta. -/
theorem append_event_routes_delta_witness :
    c1Ev.partialFlag = false ∧ c1St.sessionDoc = some c1Doc ∧
    ((deltaOf c1Ev).map Prod.fst).Nodup ∧
    (∃ st2, (append_event c1St ⟨[], [], 0⟩ c1Ev).1 = some st2 ∧
      (∀ kv ∈ deltaOf c1Ev,
        (strStarts kv.1 tempPfxStr = true → deltaWrite kv = none) ∧
        (strStarts kv.1 appPfxStr = true →
          lookupOpt st2.appDoc (removePfx kv.1 appPfxStr) = some kv.2) ∧
        (strStarts kv.1 userPfxStr = true →
          lookupOpt st2.userDoc (removePfx kv.1 userPfxStr) = some kv.2) ∧
        (strStarts kv.1 tempPfxStr = false → strStarts kv.1 appPfxStr = false →
          strStarts kv.1 userPfxStr = false →
          ∃ d2, st2.sessionDoc = some d2 ∧ lookupKey d2.state kv.1 = some kv.2)) ∧
      (∀ q, q ∉ (appEntries (deltaOf c1Ev)).map Prod.fst →
        lookupOpt st2.appDoc q = lookupOpt c1St.appDoc q) ∧
      (∀ q, q ∉ (userEntries (deltaOf c1Ev)).map Prod.fst →
        lookupOpt st2.userDoc q = lookupOpt c1St.userDoc q) ∧
      (∀ q, q ∉ (sessEntries (deltaOf c1Ev)).map Prod.fst →
        ∃ d2, st2.sessionDoc = some d2 ∧ lookupKey d2.state q = lookupKey c1Doc.state q)) :=
  ⟨rfl, rfl, by decide,
    append_event_routes_delta c1St ⟨[], [], 0⟩ c1Ev c1Doc rfl rfl (by decide)⟩

/-- Predicate: a state map binds no transient-prefixed key. -/
def stateTempFree {V : Type} (m : SDict V) : Prop :=
  ∀ k, strStarts k tempPfxStr = true → lookupKey m k = none

theorem stateTempFree_stateFold {V : Type} (m : SDict V) (es : SDict V)
    (hm : stateTempFree m)
    (hes : ∀ kv ∈ es, strStarts kv.1 tempPfxStr = false) :
    stateTempFree (stateFold m es) := by
  intro k hk
  rw [lookup_stateFold_notmem]
  · exact hm k hk
  · intro hmem
    obtain ⟨kv, hkv, rfl⟩ := List.mem_map.mp hmem
    rw [hes kv hkv] at hk
    cases hk

theorem sessEntries_not_temp {V : Type} (delta : SDict V) :
    ∀ kv ∈ sessEntries delta, strStarts kv.1 tempPfxStr = false := by
  intro kv hkv
  obtain ⟨kv0, hkv0, hg⟩ := List.mem_filterMap.mp hkv
  by_cases h1 : strStarts kv0.1 tempPfxStr <;> by_cases h2 : strStarts kv0.1 appPfxStr <;>
    by_cases h3 : strStarts kv0.1 userPfxStr <;> simp [h1, h2, h3] at hg
  subst hg
  simpa using h1

theorem stateTempFree_skipFold {V : Type} (l : SDict V) (m : SDict V)
    (hm : stateTempFree m) :
    stateTempFree (l.foldl
      (fun m2 kv => if strStarts kv.1 tempPfxStr then m2 else setKey m2 kv.1 kv.2) m) := by
  induction l generalizing m with
  | nil => exact hm
  | cons kv rest ih =>
    rw [List.foldl_cons]
    by_cases hc : strStarts kv.1 tempPfxStr
    · rw [if_pos hc]
      exact ih m hm
    · rw [if_neg hc]
      refine ih _ ?_
      intro k hk
      have hne : k ≠ kv.1 := by
        intro heq
        rw [heq] at hk
        exact hc hk
      rw [lookup_setKey_ne _ _ _ _ hne]
      exact hm k hk

/-- Lemma: the commit of a non-partial append_event succeeds on a store with
    a session document, and the resulting session document carries the
    session-tier delta entries folded into the state and the event's
    timestamp. -/
theorem appendEvent_commit_parts {V : Type} (st : Store V) (sess : SessObj V) (e : Ev V)
    (d : SessDoc V) (hpf : e.partialFlag = false) (hdoc : st.sessionDoc = some d) :
    (append_event st sess e).1 =
      some ((buildBatch (appendLocal sess e) e).foldl applyWriteT st) ∧
    ((buildBatch (appendLocal sess e) e).foldl applyWriteT st).sessionDoc =
      some { state := stateFold d.state (sessEntries (deltaOf e)),
             last_update_time := e.timestamp } := by
  constructor
  · have hsome : st.sessionDoc.isSome := by rw [hdoc]; rfl
    have htot := applyBatch_eq_total (buildBatch (appendLocal sess e) e) st hsome
    simp [append_event, hpf, htot]
  · rw [foldl_applyWriteT_sessionDoc, hdoc]
    show ((Write.setEvent e ::
      ((deltaOf e).filterMap deltaWrite ++
        [Write.updateTime (appendLocal sess e).last_update_time]))).foldl sessStep (some d) = _
    rw [List.foldl_cons, show sessStep (some d) (Write.setEvent e) = some d from rfl,
      List.foldl_append, sessStep_fold_deltaWrite]
    rfl

/-- C2 amended: transient-prefixed delta keys yield no batch write; a
    non-partial append_event keeps a transient-free session document
    transient-free; the in-memory session state stays transient-free
    through append_event; and _merge_state introduces no transient keys
    into the merged view. -/
theorem append_and_merge_never_add_temp_keys {V : Type} (st : Store V) (sess : SessObj V)
    (e : Ev V) (d : SessDoc V) (hdoc : st.sessionDoc = some d)
    (hd : stateTempFree d.state) (hs : stateTempFree sess.state) :
    (∀ kv ∈ deltaOf e, strStarts kv.1 tempPfxStr = true → deltaWrite kv = none) ∧
    (∃ st2 d2, (append_event st sess e).1 = some st2 ∧ st2.sessionDoc = some d2 ∧
      stateTempFree d2.state) ∧
    stateTempFree ((append_event st sess e).2).state ∧
    stateTempFree (merge_state st sess).state := by
  refine ⟨?_, ?_, ?_, ?_⟩
  · intro kv _ ht
    simp [deltaWrite, ht]
  · cases hpf : e.partialFlag
    · obtain ⟨happly, hsd⟩ := appendEvent_commit_parts st sess e d hpf hdoc
      refine ⟨_, _, happly, hsd, ?_⟩
      exact stateTempFree_stateFold _ _ hd (sessEntries_not_temp _)
    · refine ⟨st, d, ?_, hdoc, hd⟩
      simp [append_event, hpf]
  · cases hpf : e.partialFlag
    · have h2 : (append_event st sess e).2 = appendLocal sess e := by
        simp [append_event, hpf]
      rw [h2]
      exact stateTempFree_skipFold _ _ hs
    · have h2 : (append_event st sess e).2 = sess := by
        simp [append_event, hpf]
      rw [h2]
      exact hs
  · rw [merge_state_eq]
    refine stateTempFree_stateFold _ _ (stateTempFree_stateFold _ _ hs ?_) ?_
    · intro kv hkv
      obtain ⟨kv0, _, rfl⟩ := List.mem_map.mp hkv
      exact appKey_not_temp _
    · intro kv hkv
      obtain ⟨kv0, _, rfl⟩ := List.mem_map.mp hkv
      exact userKey_not_temp _

/-- Witness for C2 amended at an empty-state session and a delta holding a
    transient key and a session key. -/
theorem append_and_merge_never_add_temp_keys_witness :
    (⟨none, none, some ⟨[], 0⟩, []⟩ : Store Nat).sessionDoc = some ⟨[], 0⟩ ∧
    stateTempFree ([] : SDict Nat) ∧ stateTempFree ([] : SDict Nat) ∧
    ((∀ kv ∈ deltaOf (⟨"e", 5, false, some ⟨[("temp:q", 9), ("y", 2)]⟩⟩ : Ev Nat),
        strStarts kv.1 tempPfxStr = true → deltaWrite kv = none) ∧
     (∃ st2 d2, (append_event (⟨none, none, some ⟨[], 0⟩, []⟩ : Store Nat) ⟨[], [], 0⟩
          ⟨"e", 5, false, some ⟨[("temp:q", 9), ("y", 2)]⟩⟩).1 = some st2 ∧
        st2.sessionDoc = some d2 ∧ stateTempFree d2.state) ∧
     stateTempFree ((append_event (⟨none, none, some ⟨[], 0⟩, []⟩ : Store Nat) ⟨[], [], 0⟩
        ⟨"e", 5, false, some ⟨[("temp:q", 9), ("y", 2)]⟩⟩).2).state ∧
     stateTempFree (merge_state (⟨none, none, some ⟨[], 0⟩, []⟩ : Store Nat)
        ⟨[], [], 0⟩).state) :=
  ⟨rfl, fun _ _ => rfl, fun _ _ => rfl,
    append_and_merge_never_add_temp_keys _ _ _ _ rfl (fun _ _ => rfl) (fun _ _ => rfl)⟩

/-- Lemma: running any event sequence preserves the agreement between the
    in-memory last_update_time and the persisted one, both tracking the
    most recent non-partial event. -/
theorem runSession_aux {V : Type} (es : List (Ev V)) (st : Store V) (sess : SessObj V)
    (d : SessDoc V) (T : Nat) (hdoc : st.sessionDoc = some d)
    (hd : d.last_update_time = T) (hs : sess.last_update_time = T) :
    ∃ st2 sess2, es.foldlM stepAppend (st, sess) = some (st2, sess2) ∧
      sess2.last_update_time = lastNPTime T es ∧
      ∃ d2, st2.sessionDoc = some d2 ∧ d2.last_update_time = lastNPTime T es := by
  induction es generalizing st sess d T with
  | nil => exact ⟨st, sess, rfl, hs, d, hdoc, hd⟩
  | cons e rest ih =>
    cases hpf : e.partialFlag
    · obtain ⟨happly, hsd⟩ := appendEvent_commit_parts st sess e d hpf hdoc
      have h2 : (append_event st sess e).2 = appendLocal sess e := by
        simp [append_event, hpf]
      have hstep : stepAppend (st, sess) e =
          some ((buildBatch (appendLocal sess e) e).foldl applyWriteT st,
            appendLocal sess e) := by
        simp [stepAppend, happly, h2]
      rw [List.foldlM_cons, hstep]
      obtain ⟨st3, sess3, hrun, hlut, d3, hdoc3, hlut3⟩ :=
        ih ((buildBatch (appendLocal sess e) e).foldl applyWriteT st)
          (appendLocal sess e)
          ⟨stateFold d.state (sessEntries (deltaOf e)), e.timestamp⟩ e.timestamp hsd rfl rfl
      refine ⟨st3, sess3, hrun, ?_, d3, hdoc3, ?_⟩
      · rw [hlut]
        simp [lastNPTime, hpf]
      · rw [hlut3]
        simp [lastNPTime, hpf]
    · have hstep : stepAppend (st, sess) e = some (st, sess) := by
        simp [stepAppend, append_event, hpf]
      rw [List.foldlM_cons, hstep]
      obtain ⟨st3, sess3, hrun, hlut, d3, hdoc3, hlut3⟩ := ih st sess d T hdoc hd hs
      refine ⟨st3, sess3, hrun, ?_, d3, hdoc3, ?_⟩
      · rw [hlut]
        simp [lastNPTime, hpf]
      · rw [hlut3]
        simp [lastNPTime, hpf]

/-- C9: every non-partial append_event includes a field-level update of
    last_update_time with the event's timestamp in its batch; and after
    create_session at time t0 followed by any sequence of append_event
    calls, the in-memory session's last_update_time and the persisted
    session document's last_update_time both equal the timestamp of the
    most recently appended non-partial event, or t0 when none exists. -/
theorem last_update_time_invariant {V : Type} (state0 : SDict V) (t0 : Nat)
    (es : List (Ev V)) :
    (∀ (s : SessObj V) (e : Ev V), e.partialFlag = false →
      Write.updateTime e.timestamp ∈ buildBatch (appendLocal s e) e) ∧
    ∃ st sess, runSession state0 t0 es = some (st, sess) ∧
      sess.last_update_time = lastNPTime t0 es ∧
      ∃ d, st.sessionDoc = some d ∧ d.last_update_time = lastNPTime t0 es := by
  constructor
  · intro s e _
    have : Write.updateTime e.timestamp ∈
        ([Write.updateTime (appendLocal s e).last_update_time] : List (Write V)) := by
      show Write.updateTime e.timestamp ∈ ([Write.updateTime e.timestamp] : List (Write V))
      exact List.mem_singleton.mpr rfl
    exact List.mem_cons_of_mem _ (List.mem_append_right _ this)
  · have hsess : (create_session (emptyStore : Store V) state0 t0).2.last_update_time = t0 := by
      show (merge_state _ ⟨state0, [], t0⟩).last_update_time = t0
      rw [merge_state_last_update_time]
    exact runSession_aux es (create_session emptyStore state0 t0).1
      (create_session emptyStore state0 t0).2 ⟨state0, t0⟩ t0 rfl rfl hsess
